import Mathlib

/-!
Verification development for the crowdsourced sentiment analysis pipeline
(`tutorials/crowdsourcing/Crowdsourced_Sentiment_Analysis-pandas.ipynb`).

The notebook loads raw crowd votes, joins them against validated gold rows,
groups votes per tweet, builds a sparse item times worker label matrix,
and compares a generative model against a majority-vote baseline and the
average single-worker accuracy.  The pure tabular computations of the
notebook are embedded below as Lean functions; components that live in the
external snorkel library (the label-matrix writer and the generative
model) are modelled from the specification and marked as such.
-/

/-- First-occurrence deduplication: the order in which pandas `unique()`
returns distinct values, and equally the insertion order of distinct keys
in a Python dict or `Counter`. -/
def pdUnique {α : Type} [DecidableEq α] : List α → List α
  | [] => []
  | x :: xs => x :: (pdUnique xs).filter (fun y => y ≠ x)

/-- One row of the raw crowd answers table (`weather-non-agg-DFE.csv`),
restricted to the columns the notebook uses. -/
structure RawVote where
  tweet_id : Nat
  tweet_body : String
  worker_id : Nat
  emotion : String
deriving DecidableEq, Repr

/-- One row of the gold table (`weather-evaluated-agg-DFE.csv`),
restricted to the columns the notebook uses. -/
structure GoldRecord where
  tweet_id : Nat
  sentiment : String
  tweet_body : String
  correct_category : String
  correct_category_conf : Rat
deriving DecidableEq, Repr

/-- Embeds the filter
`gold_crowd_answers[(correct_category == "Yes") & (correct_category_conf == 1)]`
producing `gold_answers` in the notebook. -/
def goldAnswers (gold : List GoldRecord) : List GoldRecord :=
  gold.filter (fun g => g.correct_category = "Yes" ∧ g.correct_category_conf = 1)

/-- Embeds the inner join
`raw_crowd_answers.join(gold_answers.set_index(tweet_id), how="inner")`
projected back to the raw columns: one output row per (raw row, matching
gold row) pair, carrying the raw row fields. -/
def candidateLabeledTweets (raw : List RawVote) (gold : List GoldRecord) : List RawVote :=
  raw.flatMap (fun r =>
    ((goldAnswers gold).filter (fun g => g.tweet_id = r.tweet_id)).map (fun _ => r))

/-- Embeds the `wls` defaultdict of the notebook: for a tweet id, the list
of `(worker_id, emotion)` pairs of every raw vote row with that tweet id,
in input order.  `worker_label_generator` yields exactly this list. -/
def wlsOf (votes : List RawVote) (tid : Nat) : List (Nat × String) :=
  (votes.filter (fun r => r.tweet_id = tid)).map (fun r => (r.worker_id, r.emotion))

/-- Embeds Python `list.index`: the first position of `s`, or `none` where
Python raises `ValueError`. -/
def pyIndex (s : String) : List String → Option Nat
  | [] => none
  | x :: xs => if x = s then some 0 else (pyIndex s xs).map (fun i => i + 1)

/-- Embeds `values = list(candidate_labeled_tweets.emotion.unique())`:
the distinct emotion strings of the joined vote table, in first-appearance
order. -/
def valuesList (raw : List RawVote) (gold : List GoldRecord) : List String :=
  pdUnique ((candidateLabeledTweets raw gold).map (fun r => r.emotion))

/-- Embeds `values.index(sentiment) + 1` from the gold-label encoding loop:
`none` where Python list.index raises. -/
def goldCode (values : List String) (s : String) : Option Nat :=
  (pyIndex s values).map (fun i => i + 1)

/-- A single crowd vote: item id, worker id and a numeric label code. -/
structure Vote where
  item : Nat
  worker : Nat
  label : Nat
deriving DecidableEq, Repr

/-- Distinct item ids of a vote set, in first-appearance order. -/
def itemsOf (vs : List Vote) : List Nat :=
  pdUnique (vs.map Vote.item)

/-- Distinct worker ids of a vote set, in first-appearance order. -/
def workersOf (vs : List Vote) : List Nat :=
  pdUnique (vs.map Vote.worker)

/-- Modelled from the spec: one cell of the label matrix written by
`LabelAnnotator.apply` (snorkel.annotations, not under src/).  The spec
contract is that a cell holds the label code of the vote cast by worker
`w` on item `i`, with zero denoting no vote, and a duplicate pair resolved
by the keep-first-seen policy. -/
def cellOf (vs : List Vote) (i w : Nat) : Nat :=
  match vs.find? (fun v => v.item = i ∧ v.worker = w) with
  | some v => v.label
  | none => 0

/-- Modelled from the spec: the label matrix built by
`LabelAnnotator.apply` for one split (`L_train` in the notebook, not under
src/): one row per distinct item in a stable order, one column per
distinct worker who voted in the split, zero for absent votes. -/
def labelMatrix (vs : List Vote) : List (List Nat) :=
  (itemsOf vs).map (fun i => (workersOf vs).map (fun w => cellOf vs i w))

/-- The set of (item, worker, label) triples read back from the non-zero
entries of the label matrix. -/
def matrixVotes (vs : List Vote) : List Vote :=
  (itemsOf vs).flatMap (fun i =>
    (workersOf vs).filterMap (fun w =>
      if cellOf vs i w = 0 then none else some ⟨i, w, cellOf vs i w⟩))

/-- Number of stored (non-zero) entries of the column of worker `w`:
`L_train[:,j].nnz` in the notebook. -/
def colNnz (vs : List Vote) (w : Nat) : Nat :=
  ((itemsOf vs).filter (fun i => cellOf vs i w ≠ 0)).length

/-- Embeds one entry of the `accs` loop: the fraction of items on which
worker `w` agrees with gold, divided by the number of items the worker
voted on. -/
def workerAcc (vs : List Vote) (gold : Nat → Nat) (w : Nat) : Rat :=
  (((itemsOf vs).filter (fun i => cellOf vs i w = gold i)).length : Rat) / (colNnz vs w : Rat)

/-- The non-zero entries of a matrix row in column order:
`[L_train[i,j] for j in L_train[i].nonzero()[1]]` in the notebook. -/
def nzVotes (row : List Nat) : List Nat :=
  row.filter (fun x => x ≠ 0)

/-- Embeds Python `max` with a key function (the n = 1 fast path of
`heapq.nlargest` used by `Counter.most_common(1)`): the first element of
`d :: ds` attaining the maximal key, since a later element replaces the
current best only on a strictly greater key. -/
def firstMaxBy (key : Nat → Nat) (d : Nat) (ds : List Nat) : Nat :=
  ds.foldl (fun best x => if key best < key x then x else best) d

/-- Embeds one iteration of the notebook majority-vote loop:
`Counter(row nonzero values).most_common(1)[0][0]`, `none` where the row
has no votes and Python raises `IndexError` on the empty list. -/
def mvRow (row : List Nat) : Option Nat :=
  match pdUnique (nzVotes row) with
  | [] => none
  | d :: ds => some (firstMaxBy (fun x => (nzVotes row).count x) d ds)

/-- Embeds the whole majority-vote loop over the matrix rows: the list
`mv`, or `none` as soon as some row fails. -/
def mvAll : List (List Nat) → Option (List Nat)
  | [] => some []
  | r :: rs =>
    match mvRow r, mvAll rs with
    | some m, some ms => some (m :: ms)
    | _, _ => none

/-- Written from the words of the spec, for comparison with `mvRow`: pick
the most frequent non-zero entry and break ties by the LOWEST label code. -/
def mvRowSpecLowest (row : List Nat) : Option Nat :=
  match pdUnique (nzVotes row) with
  | [] => none
  | d :: ds => some (ds.foldl (fun best x =>
      if (nzVotes row).count best < (nzVotes row).count x ∨
         ((nzVotes row).count best = (nzVotes row).count x ∧ x < best) then x else best) d)

/-- Modelled from the spec: `GenerativeModel.marginals`
(snorkel.learning.gen_learning, not under src/) for one item row.  The
spec fixes only the output interface — a probability vector of length
equal to the cardinality `K`, summing to one — and the degenerate
equal-accuracy semantics, under which the posterior is the empirical
distribution of the row votes (uniform for a row with no votes). -/
def genMarginalsRow (K : Nat) (row : List Nat) : List Rat :=
  if nzVotes row = [] then
    List.replicate K (1 / (K : Rat))
  else
    (List.range K).map (fun c => ((nzVotes row).count (c + 1) : Rat) / ((nzVotes row).length : Rat))

/-- Modelled from the spec: `train_marginals = gen_model.marginals(L_train)`,
an item-ordered sequence of probability vectors, one per matrix row. -/
def genMarginals (K : Nat) (M : List (List Nat)) : List (List Rat) :=
  M.map (fun r => genMarginalsRow K r)

/-- Concrete raw vote rows used as witnesses: two workers on tweet 42, one
worker on tweet 99. -/
def rawEx : List RawVote :=
  [⟨42, "sunny", 7, "Positive"⟩, ⟨42, "sunny", 8, "Negative"⟩, ⟨99, "rain", 7, "Negative"⟩]

/-- Concrete gold rows used as witnesses: tweet 42 validated, tweet 99 not. -/
def goldEx : List GoldRecord :=
  [⟨42, "Positive", "sunny", "Yes", 1⟩, ⟨99, "Negative", "rain", "No", 1⟩]

/-- Concrete duplicate-vote input: worker 7 voted twice on tweet 42 with
conflicting labels. -/
def dupVotesEx : List RawVote :=
  [⟨42, "cloudy", 7, "Positive"⟩, ⟨42, "cloudy", 7, "Negative"⟩]

/-- The 3 items times 3 workers scenario of the spec. -/
def votesC5 : List Vote :=
  [⟨1, 1, 1⟩, ⟨1, 2, 1⟩, ⟨1, 3, 2⟩,
   ⟨2, 1, 2⟩, ⟨2, 2, 2⟩, ⟨2, 3, 2⟩,
   ⟨3, 1, 1⟩, ⟨3, 2, 2⟩, ⟨3, 3, 1⟩]

/-- A small duplicate-free vote set used as a witness input. -/
def vsA : List Vote :=
  [⟨1, 7, 2⟩, ⟨1, 8, 1⟩, ⟨2, 7, 1⟩]

theorem mem_pdUnique {α : Type} [DecidableEq α] (a : α) :
    ∀ l : List α, a ∈ pdUnique l ↔ a ∈ l := by
  intro l
  induction l with
  | nil => simp [pdUnique]
  | cons x xs ih =>
    simp only [pdUnique, List.mem_cons, List.mem_filter, decide_eq_true_eq]
    constructor
    · rintro (rfl | ⟨h1, _⟩)
      · exact Or.inl rfl
      · exact Or.inr (ih.mp h1)
    · rintro (rfl | h)
      · exact Or.inl rfl
      · by_cases hax : a = x
        · exact Or.inl hax
        · exact Or.inr ⟨ih.mpr h, hax⟩

theorem nodup_pdUnique {α : Type} [DecidableEq α] :
    ∀ l : List α, (pdUnique l).Nodup := by
  intro l
  induction l with
  | nil => simp [pdUnique]
  | cons x xs ih =>
    simp only [pdUnique, List.nodup_cons]
    refine ⟨?_, ih.filter _⟩
    intro hx
    have := (List.mem_filter.mp hx).2
    simp at this

theorem pdUnique_eq_nil {α : Type} [DecidableEq α] (l : List α) :
    pdUnique l = [] ↔ l = [] := by
  cases l with
  | nil => simp [pdUnique]
  | cons x xs => simp [pdUnique]

theorem find?_pair_self (vs : List Vote)
    (hnd : (vs.map (fun v => (v.item, v.worker))).Nodup) :
    ∀ v ∈ vs, vs.find? (fun u => u.item = v.item ∧ u.worker = v.worker) = some v := by
  induction vs with
  | nil => simp
  | cons a vs ih =>
    intro v hv
    simp only [List.map_cons, List.nodup_cons] at hnd
    rcases List.mem_cons.mp hv with rfl | hv
    · simp [List.find?]
    · rw [List.find?_cons_of_neg, ih hnd.2 v hv]
      simp only [decide_eq_true_eq, not_and]
      intro h1 h2
      exact hnd.1 (by
        rw [h1, h2]
        exact List.mem_map.mpr ⟨v, hv, rfl⟩)

theorem cellOf_eq_label (vs : List Vote)
    (hnd : (vs.map (fun v => (v.item, v.worker))).Nodup) :
    ∀ v ∈ vs, cellOf vs v.item v.worker = v.label := by
  intro v hv
  unfold cellOf
  rw [find?_pair_self vs hnd v hv]

theorem cellOf_eq_zero_iff (vs : List Vote) (hval : ∀ v ∈ vs, 1 ≤ v.label) (i w : Nat) :
    cellOf vs i w = 0 ↔ ∀ v ∈ vs, ¬(v.item = i ∧ v.worker = w) := by
  unfold cellOf
  cases hfind : vs.find? (fun v => v.item = i ∧ v.worker = w) with
  | none =>
    simp only [true_iff]
    have := List.find?_eq_none.mp hfind
    intro v hv
    have hv2 := this v hv
    simpa using hv2
  | some u =>
    have hpred := List.find?_some hfind
    have humem := List.mem_of_find?_eq_some hfind
    simp only [decide_eq_true_eq] at hpred
    have hu1 := hval u humem
    constructor
    · intro h0
      have h0l : u.label = 0 := h0
      exact absurd h0l (by omega)
    · intro hall
      exact absurd hpred (hall u humem)

theorem firstMaxBy_spec (key : Nat → Nat) :
    ∀ (ds : List Nat) (d : Nat),
      ∃ l1 l2,
        d :: ds = l1 ++ firstMaxBy key d ds :: l2 ∧
        (∀ x ∈ l1, key x < key (firstMaxBy key d ds)) ∧
        (∀ x ∈ d :: ds, key x ≤ key (firstMaxBy key d ds)) := by
  intro ds
  induction ds with
  | nil =>
    intro d
    refine ⟨[], [], rfl, by simp, ?_⟩
    intro x hx
    simp only [firstMaxBy, List.foldl_nil]
    rcases List.mem_cons.mp hx with rfl | hx
    · exact Nat.le_refl _
    · simp at hx
  | cons e ds ih =>
    intro d
    by_cases h : key d < key e
    · have hr : firstMaxBy key d (e :: ds) = firstMaxBy key e ds := by
        simp [firstMaxBy, List.foldl_cons, h]
      rw [hr]
      obtain ⟨l1, l2, heq, hlt, hmax⟩ := ih e
      refine ⟨d :: l1, l2, ?_, ?_, ?_⟩
      · rw [List.cons_append, ← heq]
      · intro x hx
        rcases List.mem_cons.mp hx with rfl | hx
        · exact Nat.lt_of_lt_of_le h (hmax e (List.mem_cons_self _ _))
        · exact hlt x hx
      · intro x hx
        rcases List.mem_cons.mp hx with rfl | hx
        · exact Nat.le_of_lt (Nat.lt_of_lt_of_le h (hmax e (List.mem_cons_self _ _)))
        · exact hmax x hx
    · have hr : firstMaxBy key d (e :: ds) = firstMaxBy key d ds := by
        simp [firstMaxBy, List.foldl_cons, h]
      rw [hr]
      obtain ⟨l1, l2, heq, hlt, hmax⟩ := ih d
      cases l1 with
      | nil =>
        simp only [List.nil_append] at heq
        have h1 : d = firstMaxBy key d ds := (List.cons_eq_cons.mp heq).1
        refine ⟨[], e :: ds, ?_, by simp, ?_⟩
        · rw [List.nil_append, ← h1]
        · intro x hx
          rcases List.mem_cons.mp hx with rfl | hx
          · rw [← h1]
          rcases List.mem_cons.mp hx with rfl | hx
          · rw [← h1]; exact Nat.le_of_not_lt h
          · exact hmax x (List.mem_cons_of_mem _ hx)
      | cons a t =>
        have h1 : d = a := (List.cons_eq_cons.mp heq).1
        have h2 : ds = t ++ firstMaxBy key d ds :: l2 := (List.cons_eq_cons.mp heq).2
        subst h1
        have hdlt : key d < key (firstMaxBy key d ds) := hlt d (List.mem_cons_self _ _)
        refine ⟨d :: e :: t, l2, ?_, ?_, ?_⟩
        · rw [List.cons_append, List.cons_append, ← h2]
        · intro x hx
          rcases List.mem_cons.mp hx with rfl | hx
          · exact hdlt
          rcases List.mem_cons.mp hx with rfl | hx
          · exact Nat.lt_of_le_of_lt (Nat.le_of_not_lt h) hdlt
          · exact hlt x (List.mem_cons_of_mem _ hx)
        · intro x hx
          rcases List.mem_cons.mp hx with rfl | hx
          · exact hmax x (List.mem_cons_self _ _)
          rcases List.mem_cons.mp hx with rfl | hx
          · exact Nat.le_trans (Nat.le_of_not_lt h) (hmax d (List.mem_cons_self _ _))
          · exact hmax x (List.mem_cons_of_mem _ hx)

theorem pyIndex_eq_none_iff (s : String) : ∀ l : List String, pyIndex s l = none ↔ s ∉ l := by
  intro l
  induction l with
  | nil => simp [pyIndex]
  | cons x xs ih =>
    by_cases h : x = s
    · subst h
      simp [pyIndex]
    · simp only [pyIndex, if_neg h, Option.map_eq_none', ih, List.mem_cons]
      constructor
      · intro hn
        rintro (rfl | hmem)
        · exact h rfl
        · exact hn hmem
      · intro hn hmem
        exact hn (Or.inr hmem)

theorem pyIndex_lt_length (s : String) :
    ∀ (l : List String) (i : Nat), pyIndex s l = some i → i < l.length := by
  intro l
  induction l with
  | nil => simp [pyIndex]
  | cons x xs ih =>
    intro i hi
    by_cases h : x = s
    · rw [pyIndex, if_pos h] at hi
      injection hi with hi
      subst hi
      simp
    · rw [pyIndex, if_neg h] at hi
      cases hj : pyIndex s xs with
      | none => rw [hj] at hi; simp at hi
      | some j =>
        rw [hj] at hi
        injection hi with hi
        subst hi
        have := ih j hj
        simp only [List.length_cons]
        omega

theorem mem_nzVotes (x : Nat) (row : List Nat) : x ∈ nzVotes row ↔ x ∈ row ∧ x ≠ 0 := by
  simp [nzVotes, List.mem_filter]

theorem mvRow_none_of_all_zero (row : List Nat) (hz : ∀ x ∈ row, x = 0) :
    mvRow row = none := by
  have hnil : nzVotes row = [] := by
    rw [List.eq_nil_iff_forall_not_mem]
    intro x hx
    rw [mem_nzVotes] at hx
    exact hx.2 (hz x hx.1)
  rw [mvRow, hnil]
  rfl

theorem mem_matrixVotes (vs : List Vote) (u : Vote) :
    u ∈ matrixVotes vs ↔
      u.item ∈ itemsOf vs ∧ u.worker ∈ workersOf vs ∧
        cellOf vs u.item u.worker = u.label ∧ u.label ≠ 0 := by
  unfold matrixVotes
  simp only [List.mem_flatMap, List.mem_filterMap]
  constructor
  · rintro ⟨i, hi, w, hw, hfw⟩
    by_cases hc : cellOf vs i w = 0
    · rw [if_pos hc] at hfw
      exact absurd hfw (by simp)
    · rw [if_neg hc] at hfw
      have := Option.some.inj hfw
      subst this
      exact ⟨hi, hw, rfl, hc⟩
  · rintro ⟨hi, hw, hcell, hne⟩
    refine ⟨u.item, hi, u.worker, hw, ?_⟩
    rw [hcell, if_neg hne]

theorem nodup_matrixVotes (vs : List Vote) : (matrixVotes vs).Nodup := by
  unfold matrixVotes
  rw [List.nodup_flatMap]
  constructor
  · intro i hi
    refine List.Nodup.filterMap ?_ (nodup_pdUnique _)
    intro w w' u hw hw'
    by_cases hc : cellOf vs i w = 0
    · rw [if_pos hc] at hw
      simp at hw
    · rw [if_neg hc] at hw
      by_cases hc' : cellOf vs i w' = 0
      · rw [if_pos hc'] at hw'
        simp at hw'
      · rw [if_neg hc'] at hw'
        have h1 := Option.some.inj hw
        have h2 := Option.some.inj hw'
        have : w = u.worker := by rw [← h1]
        have that : w' = u.worker := by rw [← h2]
        rw [this, that]
  · have : ∀ (i : Nat), ∀ u ∈ (workersOf vs).filterMap (fun w =>
        if cellOf vs i w = 0 then none else some (⟨i, w, cellOf vs i w⟩ : Vote)), u.item = i := by
      intro i u hu
      obtain ⟨w, _, hfw⟩ := List.mem_filterMap.mp hu
      by_cases hc : cellOf vs i w = 0
      · rw [if_pos hc] at hfw; simp at hfw
      · rw [if_neg hc] at hfw
        have := Option.some.inj hfw
        rw [← this]
    refine List.Pairwise.imp ?_ (nodup_pdUnique (vs.map Vote.item))
    intro i j hij
    rw [Function.onFun, List.disjoint_left]
    intro u hui huj
    exact hij (by rw [← this i u hui, ← this j u huj])

theorem sum_map_zero_nat : ∀ L : List Nat, (L.map (fun _ => (0 : Nat))).sum = 0 := by
  intro L
  induction L with
  | nil => rfl
  | cons a L ih => simp [ih]

theorem sum_map_add_nat (f g : Nat → Nat) :
    ∀ L : List Nat, (L.map (fun c => f c + g c)).sum = (L.map f).sum + (L.map g).sum := by
  intro L
  induction L with
  | nil => rfl
  | cons a L ih =>
    simp only [List.map_cons, List.sum_cons, ih]
    omega

theorem sum_indicator_range_zero (a : Nat) :
    ∀ n : Nat, n < a → ((List.range n).map (fun c => if c + 1 = a then 1 else 0)).sum = 0 := by
  intro n
  induction n with
  | zero => intro _; rfl
  | succ n ih =>
    intro h
    rw [List.range_succ, List.map_append, List.sum_append, ih (by omega)]
    simp only [List.map_cons, List.map_nil, List.sum_cons, List.sum_nil]
    rw [if_neg (by omega)]
    omega

theorem sum_indicator_range_one (a : Nat) :
    ∀ n : Nat, 1 ≤ a → a ≤ n → ((List.range n).map (fun c => if c + 1 = a then 1 else 0)).sum = 1 := by
  intro n
  induction n with
  | zero => intro h1 h2; omega
  | succ n ih =>
    intro h1 h2
    rw [List.range_succ, List.map_append, List.sum_append]
    simp only [List.map_cons, List.map_nil, List.sum_cons, List.sum_nil]
    by_cases h : a ≤ n
    · rw [ih h1 h, if_neg (by omega)]
      omega
    · have ha : a = n + 1 := by omega
      rw [sum_indicator_range_zero a n (by omega), if_pos (by omega)]
      omega

theorem sum_count_range (n : Nat) :
    ∀ l : List Nat, (∀ x ∈ l, 1 ≤ x ∧ x ≤ n) →
      ((List.range n).map (fun c => l.count (c + 1))).sum = l.length := by
  intro l
  induction l with
  | nil =>
    intro _
    simp only [List.count_nil, List.length_nil]
    exact sum_map_zero_nat _
  | cons a l ih =>
    intro h
    have ha := h a (List.mem_cons_self _ _)
    have hl : ∀ x ∈ l, 1 ≤ x ∧ x ≤ n := fun x hx => h x (List.mem_cons_of_mem _ hx)
    have hcount : ∀ c : Nat, (a :: l).count (c + 1) = l.count (c + 1) + (if c + 1 = a then 1 else 0) := by
      intro c
      rw [List.count_cons]
      simp only [beq_iff_eq]
      rcases eq_or_ne a (c + 1) with hca | hca
      · subst hca; simp
      · rw [if_neg hca, if_neg (fun hc => hca hc.symm)]
    calc ((List.range n).map (fun c => (a :: l).count (c + 1))).sum
        = ((List.range n).map (fun c => l.count (c + 1) + (if c + 1 = a then 1 else 0))).sum := by
          congr 1
          exact List.map_congr_left (fun c _ => hcount c)
      _ = ((List.range n).map (fun c => l.count (c + 1))).sum
            + ((List.range n).map (fun c => if c + 1 = a then 1 else 0)).sum :=
          sum_map_add_nat _ _ _
      _ = l.length + 1 := by rw [ih hl, sum_indicator_range_one a n ha.1 ha.2]
      _ = (a :: l).length := by simp

theorem sum_map_div_rat (f : Nat → Nat) (q : Rat) :
    ∀ L : List Nat, (L.map (fun c => (f c : Rat) / q)).sum = ((L.map f).sum : Rat) / q := by
  intro L
  induction L with
  | nil => simp
  | cons a L ih =>
    simp only [List.map_cons, List.sum_cons, ih]
    push_cast
    rw [add_div]

theorem genMarginalsRow_length (K : Nat) (row : List Nat) :
    (genMarginalsRow K row).length = K := by
  unfold genMarginalsRow
  split <;> simp

theorem genMarginalsRow_sum (K : Nat) (row : List Nat) (hK : 1 ≤ K)
    (h : ∀ x ∈ row, x ≠ 0 → 1 ≤ x ∧ x ≤ K) :
    (genMarginalsRow K row).sum = 1 := by
  unfold genMarginalsRow
  by_cases hz : nzVotes row = []
  · rw [if_pos hz, List.sum_replicate, nsmul_eq_mul]
    have hKne : (K : Rat) ≠ 0 := by
      have hK0 : K ≠ 0 := by omega
      exact_mod_cast hK0
    field_simp
  · rw [if_neg hz, sum_map_div_rat]
    have hlen : (nzVotes row).length ≠ 0 := by
      intro hc
      exact hz (List.length_eq_zero.mp hc)
    have hall : ∀ x ∈ nzVotes row, 1 ≤ x ∧ x ≤ K := by
      intro x hx
      rw [mem_nzVotes] at hx
      exact h x hx.1 hx.2
    rw [sum_count_range K (nzVotes row) hall]
    rw [div_self (by exact_mod_cast hlen)]

/-- Claim C1, counterexample: on an input holding two votes by worker 7 on
tweet 42 with conflicting labels, the per-tweet vote list (`wls`, consumed
unchanged by `worker_label_generator`) yields both conflicting votes; it
neither keeps only the first-seen vote nor rejects the input, so no error
condition is surfaced. -/
theorem wlsOf_conflicting_duplicate_not_surfaced :
    wlsOf dupVotesEx 42 = [(7, "Positive"), (7, "Negative")] ∧
    (7, "Positive") ∈ wlsOf dupVotesEx 42 ∧
    (7, "Negative") ∈ wlsOf dupVotesEx 42 ∧
    wlsOf dupVotesEx 42 ≠ [(7, "Positive")] ∧
    wlsOf dupVotesEx 42 ≠ [] := by decide

/-- Claim C1, amended: the per-tweet vote lists and the label generator
pass every duplicate through without detection — each (worker, label)
pair occurs in the generated list exactly as many times as raw vote rows
with that tweet id, worker id and label occur in the input, so duplicates
are never deduplicated, merged or flagged. -/
theorem wlsOf_passes_duplicates_through (votes : List RawVote) (tid w : Nat) (lab : String) :
    (wlsOf votes tid).count (w, lab) =
      (votes.filter (fun r => r.tweet_id = tid ∧ r.worker_id = w ∧ r.emotion = lab)).length := by
  unfold wlsOf List.count
  rw [List.countP_map, List.countP_filter, ← List.countP_eq_length_filter]
  congr 1
  funext r
  by_cases h1 : r.tweet_id = tid <;> by_cases h2 : r.worker_id = w <;>
    by_cases h3 : r.emotion = lab <;>
      simp [h1, h2, h3, Function.comp]

/-- Claim C2, counterexample: on the row `[2, 1]` the label codes 1 and 2
are tied for most frequent among the non-zero entries, yet the notebook
computation `Counter(...).most_common(1)[0][0]` (embedded as `mvRow`)
returns 2, the label seen in the earliest column, not the lowest label
code 1 demanded by the claim (embedded from the spec words as
`mvRowSpecLowest`). -/
theorem mvRow_tie_not_lowest :
    (nzVotes [2, 1]).count 1 = (nzVotes [2, 1]).count 2 ∧
    mvRow [2, 1] = some 2 ∧
    mvRowSpecLowest [2, 1] = some 1 ∧
    mvRow [2, 1] ≠ mvRowSpecLowest [2, 1] := by decide

/-- Claim C2, amended: for every matrix row with at least one vote, the
majority-vote computation `mvRow` returns a most frequent label code among
the non-zero entries of the row, and when several label codes are tied for
most frequent it deterministically returns the one whose first occurrence
in the row (column order) comes earliest — not the lowest label code. -/
theorem mvRow_most_frequent_first_seen (row : List Nat) (h : nzVotes row ≠ []) :
    ∃ m, mvRow row = some m ∧ m ∈ nzVotes row ∧
      (∀ x ∈ nzVotes row, (nzVotes row).count x ≤ (nzVotes row).count m) ∧
      ∃ l1 l2, pdUnique (nzVotes row) = l1 ++ m :: l2 ∧
        ∀ x ∈ l1, (nzVotes row).count x < (nzVotes row).count m := by
  cases hpd : pdUnique (nzVotes row) with
  | nil => exact absurd ((pdUnique_eq_nil _).mp hpd) h
  | cons d ds =>
    obtain ⟨l1, l2, heq, hlt, hmax⟩ := firstMaxBy_spec (fun x => (nzVotes row).count x) ds d
    refine ⟨firstMaxBy (fun x => (nzVotes row).count x) d ds, ?_, ?_, ?_, l1, l2, ?_, hlt⟩
    · simp [mvRow, hpd]
    · have hm : firstMaxBy (fun x => (nzVotes row).count x) d ds ∈ d :: ds := by
        rw [heq]
        exact List.mem_append_right _ (List.mem_cons_self _ _)
      rw [← hpd] at hm
      exact (mem_pdUnique _ _).mp hm
    · intro x hx
      have hxp : x ∈ d :: ds := by
        rw [← hpd]
        exact (mem_pdUnique _ _).mpr hx
      exact hmax x hxp
    · exact heq

/-- Claim C2, witness for the amended theorem on the concrete row
`[1, 2, 2]`. -/
theorem mvRow_most_frequent_first_seen_witness :
    nzVotes [1, 2, 2] ≠ [] ∧
      (∃ m, mvRow [1, 2, 2] = some m ∧ m ∈ nzVotes [1, 2, 2] ∧
        (∀ x ∈ nzVotes [1, 2, 2], (nzVotes [1, 2, 2]).count x ≤ (nzVotes [1, 2, 2]).count m) ∧
        ∃ l1 l2, pdUnique (nzVotes [1, 2, 2]) = l1 ++ m :: l2 ∧
          ∀ x ∈ l1, (nzVotes [1, 2, 2]).count x < (nzVotes [1, 2, 2]).count m) :=
  ⟨by decide, mvRow_most_frequent_first_seen [1, 2, 2] (by decide)⟩

/-- Claim C3: for every vote set with no duplicate (item, worker) pairs
and valid (non-zero) label codes, building the label matrix and reading
back the (item, worker, label) triples from its non-zero entries yields
exactly the original vote set — no vote is lost and none is duplicated. -/
theorem labelMatrix_round_trip (vs : List Vote)
    (hnd : (vs.map (fun v => (v.item, v.worker))).Nodup)
    (hval : ∀ v ∈ vs, 1 ≤ v.label) :
    (matrixVotes vs).Nodup ∧ ∀ v : Vote, v ∈ matrixVotes vs ↔ v ∈ vs := by
  refine ⟨nodup_matrixVotes vs, fun v => ?_⟩
  rw [mem_matrixVotes]
  constructor
  · rintro ⟨hi, hw, hcell, hne⟩
    unfold cellOf at hcell
    cases hfind : vs.find? (fun u => u.item = v.item ∧ u.worker = v.worker) with
    | none =>
      rw [hfind] at hcell
      have h0 : (0 : Nat) = v.label := hcell
      exact absurd h0.symm hne
    | some u =>
      rw [hfind] at hcell
      have hlab : u.label = v.label := hcell
      have hpred := List.find?_some hfind
      have humem := List.mem_of_find?_eq_some hfind
      simp only [decide_eq_true_eq] at hpred
      have huv : u = v := by
        cases u
        cases v
        simp only [Vote.mk.injEq]
        exact ⟨hpred.1, hpred.2, hlab⟩
      rw [← huv]
      exact humem
  · intro hv
    refine ⟨?_, ?_, cellOf_eq_label vs hnd v hv, ?_⟩
    · exact (mem_pdUnique _ _).mpr (List.mem_map.mpr ⟨v, hv, rfl⟩)
    · exact (mem_pdUnique _ _).mpr (List.mem_map.mpr ⟨v, hv, rfl⟩)
    · have := hval v hv
      omega

/-- Claim C3, witness on the concrete duplicate-free vote set `vsA`. -/
theorem labelMatrix_round_trip_witness :
    (vsA.map (fun v => (v.item, v.worker))).Nodup ∧
    (∀ v ∈ vsA, 1 ≤ v.label) ∧
    ((⟨1, 7, 2⟩ : Vote) ∈ matrixVotes vsA ↔ (⟨1, 7, 2⟩ : Vote) ∈ vsA) :=
  ⟨by decide, by decide, (labelMatrix_round_trip vsA (by decide) (by decide)).2 ⟨1, 7, 2⟩⟩

/-- Claim C4: for every vote set of one split with valid (non-zero) label
codes, the label matrix has exactly one row per distinct item (in the
stable first-appearance order) and one column per distinct worker who cast
at least one vote; a cell is zero exactly when no vote by that (item,
worker) pair exists, so zero is never a valid label code. -/
theorem labelMatrix_shape_invariants (vs : List Vote) (hval : ∀ v ∈ vs, 1 ≤ v.label) :
    (labelMatrix vs).length = (itemsOf vs).length ∧
    (∀ r ∈ labelMatrix vs, r.length = (workersOf vs).length) ∧
    (itemsOf vs).Nodup ∧ (workersOf vs).Nodup ∧
    (∀ i, i ∈ itemsOf vs ↔ ∃ v ∈ vs, v.item = i) ∧
    (∀ w, w ∈ workersOf vs ↔ ∃ v ∈ vs, v.worker = w) ∧
    (∀ i w, cellOf vs i w = 0 ↔ ∀ v ∈ vs, ¬(v.item = i ∧ v.worker = w)) := by
  refine ⟨by simp [labelMatrix], ?_, nodup_pdUnique _, nodup_pdUnique _, ?_, ?_,
    cellOf_eq_zero_iff vs hval⟩
  · intro r hr
    obtain ⟨i, _, rfl⟩ := List.mem_map.mp hr
    simp
  · intro i
    rw [itemsOf, mem_pdUnique, List.mem_map]
  · intro w
    rw [workersOf, mem_pdUnique, List.mem_map]

/-- Claim C4, witness on the concrete vote set `vsA`. -/
theorem labelMatrix_shape_invariants_witness :
    (∀ v ∈ vsA, 1 ≤ v.label) ∧
    (labelMatrix vsA).length = (itemsOf vsA).length :=
  ⟨by decide, (labelMatrix_shape_invariants vsA (by decide)).1⟩

/-- Claim C5: on the concrete 3-item, 3-worker scenario with label codes
in {1, 2}, the label matrix is 3 by 3 with every cell populated and the
majority-vote computation returns [1, 2, 1]. -/
theorem scenario_three_by_three :
    labelMatrix votesC5 = [[1, 1, 2], [2, 2, 2], [1, 2, 1]] ∧
    (labelMatrix votesC5).length = 3 ∧
    (∀ r ∈ labelMatrix votesC5, r.length = 3 ∧ ∀ x ∈ r, x ≠ 0) ∧
    mvAll (labelMatrix votesC5) = some [1, 2, 1] := by decide

/-- Claim C6: a vote row belongs to the candidate vote set exactly when it
is a raw vote row whose tweet has a validated gold row (correct_category
"Yes" with confidence 1); votes on tweets with no validated gold row are
dropped entirely by the inner join, never retained zero-filled. -/
theorem candidateLabeledTweets_mem_iff (raw : List RawVote) (gold : List GoldRecord)
    (c : RawVote) :
    c ∈ candidateLabeledTweets raw gold ↔
      c ∈ raw ∧ ∃ g ∈ goldAnswers gold, g.tweet_id = c.tweet_id := by
  unfold candidateLabeledTweets
  rw [List.mem_flatMap]
  constructor
  · rintro ⟨r, hr, hc⟩
    obtain ⟨g, hgf, rfl⟩ := List.mem_map.mp hc
    obtain ⟨hg, hgt⟩ := List.mem_filter.mp hgf
    simp only [decide_eq_true_eq] at hgt
    exact ⟨hr, g, hg, hgt⟩
  · rintro ⟨hc, g, hg, heq⟩
    refine ⟨c, hc, List.mem_map.mpr ⟨g, List.mem_filter.mpr ⟨hg, ?_⟩, rfl⟩⟩
    simpa using heq

/-- Claim C6, witness: the vote on validated tweet 42 is kept, the vote on
unvalidated tweet 99 is excluded. -/
theorem candidateLabeledTweets_mem_iff_witness :
    ((⟨42, "sunny", 7, "Positive"⟩ : RawVote) ∈ candidateLabeledTweets rawEx goldEx) ∧
    ((⟨99, "rain", 7, "Negative"⟩ : RawVote) ∉ candidateLabeledTweets rawEx goldEx) :=
  ⟨(candidateLabeledTweets_mem_iff rawEx goldEx _).mpr (by decide),
   fun h => absurd ((candidateLabeledTweets_mem_iff rawEx goldEx _).mp h) (by decide)⟩

/-- Claim C7: the marginals returned by the generative model form a list
with one probability vector per matrix row, in row order; each vector has
length equal to the cardinality K and sums to exactly 1. -/
theorem genMarginals_interface (K : Nat) (M : List (List Nat)) (hK : 1 ≤ K)
    (h : ∀ r ∈ M, ∀ x ∈ r, x ≠ 0 → 1 ≤ x ∧ x ≤ K) :
    (genMarginals K M).length = M.length ∧
    (∀ i : Nat, (genMarginals K M)[i]? = (M[i]?).map (fun r => genMarginalsRow K r)) ∧
    (∀ p ∈ genMarginals K M, p.length = K ∧ p.sum = 1) := by
  refine ⟨by simp [genMarginals], ?_, ?_⟩
  · intro i
    simp [genMarginals]
  · intro p hp
    obtain ⟨r, hr, rfl⟩ := List.mem_map.mp hp
    exact ⟨genMarginalsRow_length K r, genMarginalsRow_sum K r hK (h r hr)⟩

/-- Claim C7, witness on a concrete 2-row matrix with cardinality 2. -/
theorem genMarginals_interface_witness :
    (1 ≤ 2 ∧ ∀ r ∈ [[1, 2], [0, 2]], ∀ x ∈ r, x ≠ 0 → 1 ≤ x ∧ x ≤ 2) ∧
    (genMarginals 2 [[1, 2], [0, 2]]).length = [[1, 2], [0, 2]].length :=
  ⟨⟨by decide, by decide⟩,
   (genMarginals_interface 2 [[1, 2], [0, 2]] (by decide) (by decide)).1⟩

/-- Claim C8: the majority-vote computation is undefined on an item with
zero votes — a label matrix containing an all-zero row makes the whole
computation fail (the embedded `IndexError` of
`most_common(1)[0]` on an empty Counter), rather than return a
no-confidence result. -/
theorem mvAll_none_of_zero_row (M : List (List Nat)) (row : List Nat)
    (hrow : row ∈ M) (hz : ∀ x ∈ row, x = 0) :
    mvAll M = none := by
  have hnone := mvRow_none_of_all_zero row hz
  induction M with
  | nil => simp at hrow
  | cons r rs ih =>
    rcases List.mem_cons.mp hrow with rfl | hmem
    · simp [mvAll, hnone]
    · cases hmr : mvRow r <;> simp [mvAll, hmr, ih hmem]

/-- Claim C8, witness: a matrix whose second row is all-zero. -/
theorem mvAll_none_of_zero_row_witness :
    ([0, 0] ∈ [[1], [0, 0]] ∧ (∀ x ∈ [0, 0], x = 0)) ∧
    mvAll [[1], [0, 0]] = none :=
  ⟨by decide, mvAll_none_of_zero_row [[1], [0, 0]] [0, 0] (by decide) (by decide)⟩

/-- Claim C9: every worker column of the label matrix of a split has at
least one stored vote, because columns exist only for workers who voted in
the split; hence the denominator `L_train[:,j].nnz` of the average-worker
accuracy computation is never zero. -/
theorem colNnz_pos (vs : List Vote) (hval : ∀ v ∈ vs, 1 ≤ v.label) :
    ∀ w ∈ workersOf vs, 0 < colNnz vs w := by
  intro w hw
  rw [workersOf, mem_pdUnique] at hw
  obtain ⟨v, hv, rfl⟩ := List.mem_map.mp hw
  have hcell : cellOf vs v.item v.worker ≠ 0 := by
    intro hc
    rw [cellOf_eq_zero_iff vs hval] at hc
    exact hc v hv ⟨rfl, rfl⟩
  have hmem : v.item ∈ (itemsOf vs).filter (fun i => cellOf vs i v.worker ≠ 0) := by
    rw [List.mem_filter]
    refine ⟨(mem_pdUnique _ _).mpr (List.mem_map.mpr ⟨v, hv, rfl⟩), ?_⟩
    simpa using hcell
  rw [colNnz]
  exact List.length_pos.mpr (fun hnil => by rw [hnil] at hmem; simp at hmem)

/-- Claim C9, witness on the concrete vote set `vsA` and worker 7. -/
theorem colNnz_pos_witness :
    ((∀ v ∈ vsA, 1 ≤ v.label) ∧ 7 ∈ workersOf vsA) ∧ 0 < colNnz vsA 7 :=
  ⟨⟨by decide, by decide⟩, colNnz_pos vsA (by decide) 7 (by decide)⟩

/-- Claim C10: the numeric gold label of a candidate is 1 plus the
position of its gold sentiment string in the distinct crowd-vote emotions
in first-appearance order (`values`); the encoding is undefined (Python
raises) exactly when the sentiment string never occurs as a crowd vote,
and any defined code lies in 1..K. -/
theorem goldCode_defined_iff_voted (raw : List RawVote) (gold : List GoldRecord) (s : String) :
    (goldCode (valuesList raw gold) s = none ↔
      s ∉ (candidateLabeledTweets raw gold).map (fun r => r.emotion)) ∧
    (∀ k, goldCode (valuesList raw gold) s = some k →
      1 ≤ k ∧ k ≤ (valuesList raw gold).length ∧
      pyIndex s (valuesList raw gold) = some (k - 1)) := by
  constructor
  · rw [goldCode, Option.map_eq_none', pyIndex_eq_none_iff, valuesList, mem_pdUnique]
  · intro k hk
    rw [goldCode] at hk
    cases hpi : pyIndex s (valuesList raw gold) with
    | none => rw [hpi] at hk; simp at hk
    | some i =>
      rw [hpi] at hk
      simp only [Option.map_some'] at hk
      injection hk with hk
      subst hk
      have := pyIndex_lt_length s (valuesList raw gold) i hpi
      refine ⟨by omega, by omega, ?_⟩
      congr 1

/-- Claim C10, witness: on the concrete tables, "Positive" is the first
distinct emotion and encodes to 1. -/
theorem goldCode_defined_iff_voted_witness :
    goldCode (valuesList rawEx goldEx) "Positive" = some 1 ∧
      (1 ≤ 1 ∧ 1 ≤ (valuesList rawEx goldEx).length ∧
        pyIndex "Positive" (valuesList rawEx goldEx) = some 0) :=
  ⟨by decide, (goldCode_defined_iff_voted rawEx goldEx "Positive").2 1 (by decide)⟩
